import Mathlib

/-! Verification development for Qcover's Cirq backend
(`src/backends/circuitbycirq.py`).

The Python module builds, for each (element, subgraph) pair, a QAOA circuit
with cirq, simulates it to a state vector and returns the weighted
expectation of a Z or Z⊗Z observable; two aggregation strategies (serial and
process-pool parallel) sum the per-term contributions and append the total to
an expectation-history list.

Modelling conventions: machine floats are real numbers; cirq state vectors
are functions from bit assignments to complex amplitudes; Python dict/array
weight lookups are Option-valued maps (a missing key raises, modelled as
`none`); a raised exception anywhere makes the whole computation `none`.
The source slices `self._pargs` (a numpy array) into `gamma_list` and
`beta_list` and passes those WHOLE slices as the `cirq.rz` / `cirq.rx`
angles — it never indexes them with the layer counter `k` — so gate angles
are modelled as lists of reals, and gate application is defined exactly when
the angle list is a single scalar (a size-1 numpy array broadcasts like a
scalar; larger arrays do not yield a rotation gate at all).
-/

namespace CircuitByCirqModel

noncomputable section

/-- Python `original_e` in `get_expectation`: an `int` node id or a 2-tuple of
node ids (the `isinstance(element, int)` dispatch). -/
inductive Element where
  | node (v : ℕ)
  | edge (a b : ℕ)
  deriving DecidableEq

/-- A networkx subgraph as consumed by `get_expectation`: its node collection
in insertion order (`list(graph.nodes)`, duplicate-free) and its edge
collection (each undirected edge listed once). -/
structure SubGraph where
  nodes : List ℕ
  edges : List (ℕ × ℕ)
  deriving DecidableEq

/-- `self._nodes_weight`: node id ↦ weight; a missing entry raises a
key/index lookup error, modelled by `none`. -/
abbrev NodesWeight := ℕ → Option ℝ

/-- `self._edges_weight`: node-id pair ↦ weight; a missing entry raises a
key/index lookup error, modelled by `none`. -/
abbrev EdgesWeight := ℕ × ℕ → Option ℝ

/-- The `node_to_qubit` table of `get_expectation` (lines 58-61): a
`defaultdict(int)` filled with `node_to_qubit[node_list[i]] = i`.  Since the
networkx node list is duplicate-free this maps a listed node to its position
and, being a `defaultdict`, silently maps any absent node to `0`. -/
def node_to_qubit (node_list : List ℕ) (x : ℕ) : ℕ :=
  if x ∈ node_list then node_list.indexOf x else 0

/-- The cirq gates the source appends: Hadamard, `cirq.rz`, `cirq.rx`
(angle recorded as the list of reals actually passed — the source passes a
whole numpy slice) and `cirq.CX`. -/
inductive Gate where
  | h (q : ℕ)
  | rz (angle : List ℝ) (q : ℕ)
  | rx (angle : List ℝ) (q : ℕ)
  | cx (u v : ℕ)

/-- State vector over `n` line qubits, indexed by bit assignment. -/
abbrev QState (n : ℕ) := (Fin n → Bool) → ℂ

/-- The all-zeros computational basis state `cirq.final_state_vector`
simulates from. -/
def zeroState (n : ℕ) : QState n := fun x => if ∀ i, x i = false then 1 else 0

/-- Amplitude sign of Z on one bit: Z|0⟩ = |0⟩, Z|1⟩ = -|1⟩. -/
def signB (b : Bool) : ℂ := if b then -1 else 1

/-- One cirq gate applied to the state vector.  `none` models a raised
exception: a qubit index outside the register, a `cirq.rz`/`cirq.rx` whose
angle argument is not scalar-like (only a size-1 numpy array broadcasts like
a scalar), or a CX on a repeated qubit.  `cirq.rz θ = diag(e^{-iθ/2},
e^{iθ/2})` and `cirq.rx θ = cos(θ/2)·I - i sin(θ/2)·X`. -/
def applyGate (n : ℕ) (ψ : QState n) : Gate → Option (QState n)
  | Gate.h q =>
      if hq : q < n then
        some fun x =>
          (ψ (Function.update x ⟨q, hq⟩ false)
              + signB (x ⟨q, hq⟩) * ψ (Function.update x ⟨q, hq⟩ true))
            / (Real.sqrt 2 : ℂ)
      else none
  | Gate.rz angle q =>
      match angle with
      | [θ] =>
          if hq : q < n then
            some fun x =>
              Complex.exp (-Complex.I * ((θ : ℂ) / 2) * signB (x ⟨q, hq⟩)) * ψ x
          else none
      | _ => none
  | Gate.rx angle q =>
      match angle with
      | [θ] =>
          if hq : q < n then
            some fun x =>
              Complex.cos ((θ : ℂ) / 2) * ψ x
                - Complex.I * Complex.sin ((θ : ℂ) / 2)
                    * ψ (Function.update x ⟨q, hq⟩ (!(x ⟨q, hq⟩)))
          else none
      | _ => none
  | Gate.cx u v =>
      if huv : u < n ∧ v < n ∧ u ≠ v then
        some fun x =>
          ψ (Function.update x ⟨v, huv.2.1⟩ (xor (x ⟨u, huv.1⟩) (x ⟨v, huv.2.1⟩)))
      else none

/-- `cirq.final_state_vector(circ)` (line 96): simulate the gate sequence
from the all-zeros state. -/
def final_state_vector (n : ℕ) (circ : List Gate) : Option (QState n) :=
  circ.foldlM (applyGate n) (zeroState n)

/-- Sign contributed by a Z factor on qubit `q` at bit assignment `x`; the
out-of-range branch is junk that is only ever used under an in-range guard. -/
def zSignAt (n : ℕ) (x : Fin n → Bool) (q : ℕ) : ℂ :=
  if hq : q < n then signB (x ⟨q, hq⟩) else 1

/-- `op.expectation_from_state_vector(state, qubit_map)` (line 97) for a
product of Z factors on the qubits listed in `S` (with multiplicity — cirq
cancels `Z·Z` on the same qubit, which the sign product reproduces), with the
identity qubit map of line 87.  `none` models the index error raised when an
observable qubit is outside the register. -/
def expectation_from_state_vector (n : ℕ) (S : List ℕ) (ψ : QState n) :
    Option ℂ :=
  if S.all (· < n) then
    some (∑ x : Fin n → Bool,
      (S.map (zSignAt n x)).prod * (starRingEnd ℂ) (ψ x) * ψ x)
  else none

/-- A Python for-loop over `l` that evaluates `f` on each item in order and
collects the results; a raised exception (`none`) aborts the whole loop. -/
def pyMapList {α β : Type} (f : α → Option β) : List α → Option (List β)
  | [] => some []
  | x :: xs => (f x).bind fun y => (pyMapList f xs).map fun ys => y :: ys

/-- Circuit construction of `get_expectation` (lines 57-84): Hadamards on
every local qubit, then `p` identical layers — per node a `cirq.rz` whose
angle is the whole slice `2 * gamma_list * nodes_weight[i]`, per non-self-loop
edge CX / `cirq.rz` with angle `2 * gamma_list * edges_weight[u,v]` / CX
(a self-loop hits `continue` before its weight is ever looked up), per node a
`cirq.rx` whose angle is the whole slice `2 * beta_list`.  The layer counter
`k` is never used in the loop body, exactly as in the source. -/
def build_circuit (nw : NodesWeight) (ew : EdgesWeight) (graph : SubGraph)
    (p : ℕ) (pargs : List ℝ) : Option (List Gate) :=
  let node_list := graph.nodes
  let ntq := node_to_qubit node_list
  let hGates := (List.range node_list.length).map Gate.h
  let gamma_list := pargs.take p
  let beta_list := pargs.drop p
  (pyMapList (fun _ =>
      (pyMapList (fun i =>
          (nw i).map (fun w =>
            Gate.rz (gamma_list.map fun g => 2 * g * w) (ntq i))) node_list).bind
        fun cost =>
          (pyMapList (fun (e : ℕ × ℕ) =>
              if ntq e.1 = ntq e.2 then some []
              else (ew e).map (fun w =>
                [Gate.cx (ntq e.1) (ntq e.2),
                 Gate.rz (gamma_list.map fun g => 2 * g * w) (ntq e.2),
                 Gate.cx (ntq e.1) (ntq e.2)])) graph.edges).map
            fun coup =>
              cost ++ coup.flatten
                ++ node_list.map (fun nd =>
                    Gate.rx (beta_list.map fun b => 2 * b) (ntq nd)))
    (List.range p)).map
    (fun (layers : List (List Gate)) => hGates ++ layers.flatten)

/-- `CircuitByCirq.get_expectation` (lines 39-99): build the subgraph
circuit, pick weight and observable by the element's shape (lines 89-94:
a node gives Z on its local qubit, an edge gives Z⊗Z on its endpoints' local
qubits), simulate, and return `weight * exp_res.real`. -/
def get_expectation (nw : NodesWeight) (ew : EdgesWeight) (p : ℕ)
    (pargs : List ℝ) (element_graph : Element × SubGraph) : Option ℝ :=
  let original_e := element_graph.1
  let graph := element_graph.2
  let ntq := node_to_qubit graph.nodes
  let n := graph.nodes.length
  (build_circuit nw ew graph p pargs).bind fun circ =>
    (match original_e with
      | Element.node v => (nw v).map fun w => (w, [ntq v])
      | Element.edge a b => (ew (a, b)).map fun w => (w, [ntq a, ntq b])).bind
      fun ws =>
        (final_state_vector n circ).bind fun state =>
          (expectation_from_state_vector n ws.2 state).map fun (exp_res : ℂ) =>
            ws.1 * exp_res.re

/-- The fields of a `CircuitByCirq` instance.  `_p`, `_element_to_graph` and
`_pargs` start as `None` in `__init__` and are attached by external
collaborators before any computation; they are modelled as plain fields that
hold their attached values. -/
structure CircuitByCirq where
  p : ℕ
  nodes_weight : NodesWeight
  edges_weight : EdgesWeight
  is_parallel : Bool
  element_to_graph : List (Element × SubGraph)
  pargs : List ℝ
  expectation_path : List ℝ

/-- `CircuitByCirq.__init__` (lines 14-28): stores the weights and
`False if is_parallel is None else is_parallel`; the expectation history
starts empty.  The not-yet-attached fields receive placeholder values. -/
def CircuitByCirq.init (nodes_weight : NodesWeight) (edges_weight : EdgesWeight)
    (is_parallel : Option Bool) : CircuitByCirq :=
  { p := 0
    nodes_weight := nodes_weight
    edges_weight := edges_weight
    is_parallel := is_parallel.getD false
    element_to_graph := []
    pargs := []
    expectation_path := [] }

/-- `expectation_calculation_serial` (lines 107-124): `res = 0`, add
`get_expectation(item)` for each mapping item in order, append `res` to
`self._expectation_path`, return `res`.  The thread-count environment
variables and the print are process-environment side effects with no bearing
on the computed value and are not modelled.  The returned pair is the value
together with the updated instance state. -/
def expectation_calculation_serial (c : CircuitByCirq) :
    Option (ℝ × CircuitByCirq) :=
  (c.element_to_graph.foldlM (fun res item =>
      (get_expectation c.nodes_weight c.edges_weight c.p c.pargs item).map
        (fun v => res + v)) 0).map
    fun res => (res, { c with expectation_path := c.expectation_path ++ [res] })

/-- Model of `pool.map(f, items, chunksize=1)` (line 136): evaluate `f` on
every item, preserving item order; a task that raises is fatal to the whole
call (`pool.map` re-raises), modelled by `none`. -/
def pool_map {α : Type} (f : α → Option ℝ) : List α → Option (List ℝ)
  | [] => some []
  | x :: xs => (f x).bind fun v => (pool_map f xs).map fun vs => v :: vs

/-- `expectation_calculation_parallel` (lines 126-144): `pool.map` evaluates
`get_expectation` on every mapping item (order-preserving; a raising task is
fatal to the whole call), `sum` folds the results from 0, the total is
appended to `self._expectation_path` and returned. -/
def expectation_calculation_parallel (c : CircuitByCirq) :
    Option (ℝ × CircuitByCirq) :=
  (pool_map (get_expectation c.nodes_weight c.edges_weight c.p c.pargs)
      c.element_to_graph).map
    fun results =>
      let res := results.foldl (· + ·) 0
      (res, { c with expectation_path := c.expectation_path ++ [res] })

/-- `expectation_calculation` (lines 101-105): dispatch on
`self._is_parallel`. -/
def expectation_calculation (c : CircuitByCirq) : Option (ℝ × CircuitByCirq) :=
  if c.is_parallel then expectation_calculation_parallel c
  else expectation_calculation_serial c

/-! ### Aggregation shape lemmas

Both strategies reduce to mapping `get_expectation` over the element-to-graph
items and folding the results with addition from 0, then appending the total
to the history. -/

/-- The per-term results of one computation pass, summed the way the Python
code sums them (left fold from 0); `none` when any term raises. -/
def run_total (c : CircuitByCirq) : Option ℝ :=
  (pool_map (get_expectation c.nodes_weight c.edges_weight c.p c.pargs)
      c.element_to_graph).map
    (fun results => results.foldl (· + ·) 0)

lemma foldlM_add_eq_pool_map {α : Type} (f : α → Option ℝ) (l : List α) :
    ∀ a : ℝ,
      List.foldlM (fun res item => (f item).map (fun v => res + v)) a l
        = (pool_map f l).map (fun vs => vs.foldl (· + ·) a) := by
  induction l with
  | nil => intro a; rfl
  | cons x xs ih =>
    intro a
    cases hfx : f x with
    | none => simp [List.foldlM_cons, pool_map, hfx]
    | some v =>
      have hred :
          List.foldlM (fun res item => (f item).map (fun v => res + v)) a (x :: xs)
            = List.foldlM (fun res item => (f item).map (fun v => res + v))
                (a + v) xs := by
        rw [List.foldlM_cons, hfx]
        rfl
      rw [hred, ih (a + v)]
      simp only [pool_map, hfx, Option.some_bind]
      cases pool_map f xs <;> rfl

lemma serial_run (c : CircuitByCirq) :
    expectation_calculation_serial c
      = (run_total c).map (fun res =>
          (res, { c with expectation_path := c.expectation_path ++ [res] })) := by
  unfold expectation_calculation_serial run_total
  rw [foldlM_add_eq_pool_map]

lemma parallel_run (c : CircuitByCirq) :
    expectation_calculation_parallel c
      = (run_total c).map (fun res =>
          (res, { c with expectation_path := c.expectation_path ++ [res] })) := by
  unfold expectation_calculation_parallel run_total
  cases pool_map (get_expectation c.nodes_weight c.edges_weight c.p c.pargs)
      c.element_to_graph <;> rfl

lemma calculation_run (c : CircuitByCirq) :
    expectation_calculation c
      = (run_total c).map (fun res =>
          (res, { c with expectation_path := c.expectation_path ++ [res] })) := by
  by_cases hb : c.is_parallel = true
  · rw [expectation_calculation, if_pos hb, parallel_run]
  · rw [expectation_calculation, if_neg hb, serial_run]

/-- C2. For every fixed weight mapping, depth, parameter vector and
element-to-subgraph mapping, the serial and the parallel strategy return the
same total (exactly equal in the real-number model, where floating-point
summation-order differences vanish): both compute the left-fold sum of the
same per-term contributions of `get_expectation`, and both fail exactly when
some term fails. -/
theorem claim_C2_serial_parallel_equivalent (c : CircuitByCirq) :
    expectation_calculation_serial c = expectation_calculation_parallel c ∧
      Option.map Prod.fst (expectation_calculation_serial c) = run_total c := by
  constructor
  · rw [serial_run, parallel_run]
  · rw [serial_run]
    cases run_total c <;> rfl

/-- C4. The single public entry point `expectation_calculation` dispatches on
the construction-time flag — parallel when `is_parallel` is true, serial
otherwise — and `__init__` stores `false` when `is_parallel` is not supplied
(`None`), and the supplied value otherwise. -/
theorem claim_C4_dispatch_and_default
    (c : CircuitByCirq) (nw : NodesWeight) (ew : EdgesWeight) (b : Bool) :
    (expectation_calculation c
        = if c.is_parallel then expectation_calculation_parallel c
          else expectation_calculation_serial c) ∧
      (CircuitByCirq.init nw ew none).is_parallel = false ∧
      (CircuitByCirq.init nw ew (some b)).is_parallel = b := by
  exact ⟨rfl, rfl, rfl⟩

lemma calculation_fst (c : CircuitByCirq) :
    Option.map Prod.fst (expectation_calculation c) = run_total c := by
  rw [calculation_run]
  cases run_total c <;> rfl

lemma run_total_set_path (c : CircuitByCirq) (hist : List ℝ) :
    run_total { c with expectation_path := hist } = run_total c := rfl

/-- C8. The expectation history is append-only: a successful computation call
returns an instance equal to the old one except that exactly one entry — the
returned total — is appended at the end of the history (all previous entries
and all other fields unchanged); and the engine never consults the history:
the computed total is the same whatever history is stored. -/
theorem claim_C8_history_append_only (c : CircuitByCirq) (r : ℝ)
    (c' : CircuitByCirq) (h : expectation_calculation c = some (r, c')) :
    c' = { c with expectation_path := c.expectation_path ++ [r] } ∧
      ∀ hist : List ℝ,
        Option.map Prod.fst
            (expectation_calculation { c with expectation_path := hist })
          = Option.map Prod.fst (expectation_calculation c) := by
  rw [calculation_run] at h
  constructor
  · cases hr : run_total c with
    | none => rw [hr] at h; exact absurd h (by simp)
    | some res =>
      rw [hr] at h
      rw [Option.map_some', Option.some.injEq, Prod.mk.injEq] at h
      obtain ⟨h1, h2⟩ := h
      rw [← h2, h1]
  · intro hist
    rw [calculation_fst, calculation_fst]
    rfl

/-- Concrete engine instance with an empty element-to-graph mapping, used by
witnesses: its computation trivially succeeds with total 0. -/
def cW : CircuitByCirq :=
  { p := 0
    nodes_weight := fun _ => none
    edges_weight := fun _ => none
    is_parallel := false
    element_to_graph := []
    pargs := []
    expectation_path := [] }

/-- The state of `cW` after one computation call. -/
def cW1 : CircuitByCirq := { cW with expectation_path := [0] }

theorem claim_C8_witness :
    expectation_calculation cW = some (0, cW1) ∧
      (cW1 = { cW with expectation_path := cW.expectation_path ++ [0] } ∧
        ∀ hist : List ℝ,
          Option.map Prod.fst
              (expectation_calculation { cW with expectation_path := hist })
            = Option.map Prod.fst (expectation_calculation cW)) :=
  ⟨rfl, claim_C8_history_append_only cW 0 cW1 rfl⟩

/-- C9. Re-running the computation on the state returned by a successful call
— same weights, depth, parameter vector and element-to-subgraph mapping,
since the call mutates none of them — produces the same total again,
appended as a second equal history entry. -/
theorem claim_C9_rerun_same_total (c : CircuitByCirq) (r : ℝ)
    (c' : CircuitByCirq) (h : expectation_calculation c = some (r, c')) :
    expectation_calculation c'
        = some (r, { c' with expectation_path := c'.expectation_path ++ [r] }) ∧
      c'.nodes_weight = c.nodes_weight ∧ c'.edges_weight = c.edges_weight ∧
        c'.pargs = c.pargs ∧ c'.element_to_graph = c.element_to_graph ∧
        c'.p = c.p := by
  rw [calculation_run] at h
  cases hr : run_total c with
  | none => rw [hr] at h; exact absurd h (by simp)
  | some res =>
    rw [hr] at h
    rw [Option.map_some', Option.some.injEq, Prod.mk.injEq] at h
    obtain ⟨h1, h2⟩ := h
    subst h1
    subst h2
    refine ⟨?_, rfl, rfl, rfl, rfl, rfl⟩
    rw [calculation_run, run_total_set_path, hr]
    rfl

theorem claim_C9_witness :
    expectation_calculation cW = some (0, cW1) ∧
      (expectation_calculation cW1
          = some (0, { cW1 with expectation_path := cW1.expectation_path ++ [0] }) ∧
        cW1.nodes_weight = cW.nodes_weight ∧ cW1.edges_weight = cW.edges_weight ∧
          cW1.pargs = cW.pargs ∧ cW1.element_to_graph = cW.element_to_graph ∧
          cW1.p = cW.p) :=
  ⟨rfl, claim_C9_rerun_same_total cW 0 cW1 rfl⟩

lemma pool_map_eq_none {α : Type} (f : α → Option ℝ) (l : List α)
    (h : ∃ x ∈ l, f x = none) : pool_map f l = none := by
  induction l with
  | nil => simp at h
  | cons y ys ih =>
    obtain ⟨x, hx, hfx⟩ := h
    rcases List.mem_cons.mp hx with rfl | hmem
    · simp [pool_map, hfx]
    · cases hfy : f y with
      | none => simp [pool_map, hfy]
      | some v => simp [pool_map, hfy, ih ⟨x, hmem, hfx⟩]

/-- C7. An element absent from its weight mapping makes the per-term
evaluation fail with an uncaught lookup error (`none`), and a failing term
makes the whole computation — serial or parallel — fail with no total
returned. -/
theorem claim_C7_missing_weight_fatal :
    (∀ (nw : NodesWeight) (ew : EdgesWeight) (p : ℕ) (pargs : List ℝ)
        (v : ℕ) (G : SubGraph), nw v = none →
        get_expectation nw ew p pargs (Element.node v, G) = none) ∧
      (∀ (nw : NodesWeight) (ew : EdgesWeight) (p : ℕ) (pargs : List ℝ)
          (a b : ℕ) (G : SubGraph), ew (a, b) = none →
          get_expectation nw ew p pargs (Element.edge a b, G) = none) ∧
      (∀ c : CircuitByCirq,
          (∃ eg ∈ c.element_to_graph,
            get_expectation c.nodes_weight c.edges_weight c.p c.pargs eg = none) →
          expectation_calculation_serial c = none ∧
            expectation_calculation_parallel c = none) := by
  refine ⟨?_, ?_, ?_⟩
  · intro nw ew p pargs v G h
    unfold get_expectation
    cases build_circuit nw ew G p pargs <;> simp [h]
  · intro nw ew p pargs a b G h
    unfold get_expectation
    cases build_circuit nw ew G p pargs <;> simp [h]
  · intro c h
    have hnone : run_total c = none := by
      unfold run_total
      rw [pool_map_eq_none _ _ h]
      rfl
    rw [serial_run, parallel_run, hnone]
    exact ⟨rfl, rfl⟩

/-- A one-node subgraph on node 0 with no edges. -/
def G0 : SubGraph := ⟨[0], []⟩

/-- An engine instance whose only element has no weight entry. -/
def cBad : CircuitByCirq :=
  { p := 0
    nodes_weight := fun _ => none
    edges_weight := fun _ => none
    is_parallel := false
    element_to_graph := [(Element.node 0, G0)]
    pargs := []
    expectation_path := [] }

theorem claim_C7_witness :
    ((fun _ => none : NodesWeight) 0 = none ∧
        get_expectation (fun _ => none) (fun _ => none) 0 []
          (Element.node 0, G0) = none) ∧
      ((fun _ => none : EdgesWeight) (0, 1) = none ∧
        get_expectation (fun _ => none) (fun _ => none) 0 []
          (Element.edge 0 1, G0) = none) ∧
      (expectation_calculation_serial cBad = none ∧
        expectation_calculation_parallel cBad = none) :=
  ⟨⟨rfl, claim_C7_missing_weight_fatal.1 _ _ 0 [] 0 G0 rfl⟩,
    ⟨rfl, claim_C7_missing_weight_fatal.2.1 _ _ 0 [] 0 1 G0 rfl⟩,
    claim_C7_missing_weight_fatal.2.2 cBad
      ⟨(Element.node 0, G0), List.mem_cons_self _ _,
        claim_C7_missing_weight_fatal.1 _ _ 0 [] 0 G0 rfl⟩⟩

/-- C10. The local-index table is a `defaultdict(int)`: a node absent from
the subgraph's node set silently maps to local qubit 0, so the per-term
evaluator places its node observable on local qubit 0 instead of raising a
lookup error. -/
theorem claim_C10_absent_node_defaults_to_qubit_zero :
    (∀ (nl : List ℕ) (x : ℕ), x ∉ nl → node_to_qubit nl x = 0) ∧
      (∀ (nw : NodesWeight) (ew : EdgesWeight) (p : ℕ) (pargs : List ℝ)
          (v : ℕ) (G : SubGraph), v ∉ G.nodes →
          get_expectation nw ew p pargs (Element.node v, G)
            = (build_circuit nw ew G p pargs).bind fun circ =>
                (nw v).bind fun w =>
                  (final_state_vector G.nodes.length circ).bind fun state =>
                    (expectation_from_state_vector G.nodes.length [0] state).map
                      fun (exp_res : ℂ) => w * exp_res.re) := by
  have hzero : ∀ (nl : List ℕ) (x : ℕ), x ∉ nl → node_to_qubit nl x = 0 := by
    intro nl x hx
    unfold node_to_qubit
    rw [if_neg hx]
  refine ⟨hzero, ?_⟩
  intro nw ew p pargs v G hv
  unfold get_expectation
  dsimp only
  rw [hzero G.nodes v hv]
  cases build_circuit nw ew G p pargs with
  | none => rfl
  | some circ =>
    cases nw v with
    | none => rfl
    | some w => rfl

/-- A two-element node list missing node 5, for the C10 witness. -/
def nl10 : List ℕ := [3, 7]

/-- The subgraph on `nl10` with one edge, for the C10 witness. -/
def G10 : SubGraph := ⟨nl10, [(3, 7)]⟩

theorem claim_C10_witness :
    ((5 : ℕ) ∉ nl10 ∧ node_to_qubit nl10 5 = 0) ∧
      ((5 : ℕ) ∉ G10.nodes ∧
        get_expectation (fun _ => some 1) (fun _ => some 1) 0 []
            (Element.node 5, G10)
          = (build_circuit (fun _ => some 1) (fun _ => some 1) G10 0 []).bind
              fun circ =>
                ((fun _ => some 1 : NodesWeight) 5).bind fun w =>
                  (final_state_vector G10.nodes.length circ).bind fun state =>
                    (expectation_from_state_vector G10.nodes.length [0]
                        state).map
                      fun (exp_res : ℂ) => w * exp_res.re) :=
  ⟨⟨by decide, claim_C10_absent_node_defaults_to_qubit_zero.1 nl10 5 (by decide)⟩,
    by decide,
    claim_C10_absent_node_defaults_to_qubit_zero.2 (fun _ => some 1)
      (fun _ => some 1) 0 [] 5 G10 (by decide)⟩

/-- Weight maps and a one-node subgraph for exercising the layer loop. -/
def nwOne : NodesWeight := fun _ => some 1

/-- Edge-weight map used alongside `nwOne`; never consulted on `G0`. -/
def ewNone : EdgesWeight := fun _ => none

/-- C1 (code bug). At depth `p = 2` with parameter vector
`[gamma0, gamma1, beta0, beta1] = [1, 2, 0, 0]` on a one-node subgraph of
unit weight, the circuit the code builds carries, in BOTH layers, a `cirq.rz`
whose angle argument is the whole vector `[2*gamma0*w, 2*gamma1*w]` and a
`cirq.rx` whose angle argument is the whole vector `[2*beta0, 2*beta1]`: the
source passes `2 * gamma_list * weight` and `2 * beta_list` — the entire
numpy slices — never indexing them with the layer counter `k`.  The layer-0
rotation therefore depends on `gamma[1]`, contradicting the claim that layer
`k` uses the scalar angle `2 * gamma[k] * w`; the emitted gate is not a
scalar-angle rotation at all (final conjunct). -/
theorem claim_C1_layer_angle_is_whole_gamma_slice :
    build_circuit nwOne ewNone G0 2 [1, 2, 0, 0]
        = some [Gate.h 0,
            Gate.rz [2 * 1 * 1, 2 * 2 * 1] 0, Gate.rx [2 * 0, 2 * 0] 0,
            Gate.rz [2 * 1 * 1, 2 * 2 * 1] 0, Gate.rx [2 * 0, 2 * 0] 0] ∧
      ¬ ∃ θ : ℝ, Gate.rz [2 * 1 * 1, 2 * 2 * 1] 0 = Gate.rz [θ] 0 := by
  constructor
  · rfl
  · rintro ⟨θ, hθ⟩
    injection hθ with h1 h2
    exact absurd (congrArg List.length h1) (by simp)

/-- The subgraph with every self-loop edge (both endpoints on the same local
qubit) removed; the claim compares the built circuit against this graph. -/
def removeSelfLoops (G : SubGraph) : SubGraph :=
  ⟨G.nodes, G.edges.filter fun e =>
    node_to_qubit G.nodes e.1 != node_to_qubit G.nodes e.2⟩

lemma removeSelfLoops_nodes (G : SubGraph) : (removeSelfLoops G).nodes = G.nodes :=
  rfl

lemma pyMapList_congr {α β : Type} {f g : α → Option β}
    (h : ∀ x, f x = g x) (l : List α) : pyMapList f l = pyMapList g l := by
  rw [funext h]

lemma pyMapList_filter_flatten {α β : Type} (f : α → Option (List β))
    (keep : α → Bool) (hdrop : ∀ x, keep x = false → f x = some [])
    (l : List α) :
    (pyMapList f (l.filter keep)).map List.flatten
      = (pyMapList f l).map List.flatten := by
  induction l with
  | nil => rfl
  | cons x xs ih =>
    cases hk : keep x with
    | false =>
      have hfil : (x :: xs).filter keep = xs.filter keep := by
        simp [List.filter_cons, hk]
      rw [hfil, ih]
      simp only [pyMapList, hdrop x hk, Option.some_bind]
      cases pyMapList f xs <;> simp
    | true =>
      have hfil : (x :: xs).filter keep = x :: xs.filter keep := by
        simp [List.filter_cons, hk]
      rw [hfil]
      cases hfx : f x with
      | none => simp [pyMapList, hfx]
      | some v =>
        have hcomp : ∀ o : Option (List (List β)),
            ((o.map fun ys => v :: ys).map List.flatten)
              = (o.map List.flatten).map fun zs => v ++ zs := by
          intro o; cases o <;> simp
        simp only [pyMapList, hfx, Option.some_bind]
        rw [hcomp, hcomp, ih]

lemma build_circuit_removeSelfLoops (nw : NodesWeight) (ew : EdgesWeight)
    (G : SubGraph) (p : ℕ) (pargs : List ℝ) :
    build_circuit nw ew (removeSelfLoops G) p pargs
      = build_circuit nw ew G p pargs := by
  unfold build_circuit
  dsimp only [removeSelfLoops_nodes]
  have hflat : (pyMapList (fun (e : ℕ × ℕ) =>
        if node_to_qubit G.nodes e.1 = node_to_qubit G.nodes e.2 then some []
        else (ew e).map (fun w =>
          [Gate.cx (node_to_qubit G.nodes e.1) (node_to_qubit G.nodes e.2),
           Gate.rz ((pargs.take p).map fun g => 2 * g * w)
             (node_to_qubit G.nodes e.2),
           Gate.cx (node_to_qubit G.nodes e.1) (node_to_qubit G.nodes e.2)]))
        ((removeSelfLoops G).edges)).map List.flatten
      = (pyMapList (fun (e : ℕ × ℕ) =>
          if node_to_qubit G.nodes e.1 = node_to_qubit G.nodes e.2 then some []
          else (ew e).map (fun w =>
            [Gate.cx (node_to_qubit G.nodes e.1) (node_to_qubit G.nodes e.2),
             Gate.rz ((pargs.take p).map fun g => 2 * g * w)
               (node_to_qubit G.nodes e.2),
             Gate.cx (node_to_qubit G.nodes e.1) (node_to_qubit G.nodes e.2)]))
          G.edges).map List.flatten := by
    apply pyMapList_filter_flatten
    intro e he
    have heq : node_to_qubit G.nodes e.1 = node_to_qubit G.nodes e.2 := by
      by_contra hne
      simp [bne_iff_ne, hne] at he
    rw [if_pos heq]
  refine congrArg (Option.map _) ?_
  apply pyMapList_congr
  intro k
  cases hcost : pyMapList (fun i => (nw i).map fun w =>
      Gate.rz ((pargs.take p).map fun g => 2 * g * w)
        (node_to_qubit G.nodes i)) G.nodes with
  | none => simp [hcost]
  | some cost =>
    simp only [hcost, Option.some_bind]
    have hmap : ∀ (o : Option (List (List Gate))) (mixer : List Gate),
        (o.map fun coup => cost ++ coup.flatten ++ mixer)
          = (o.map List.flatten).map fun cf => cost ++ cf ++ mixer := by
      intro o mixer; cases o <;> rfl
    rw [hmap, hmap, hflat]

/-- C6. A self-loop edge — one whose endpoints map to the same local qubit —
contributes no CNOT and no Z-rotation (the loop body hits `continue` before
touching it, and before its weight is even looked up), and the per-term
evaluation proceeds without error: both the built circuit and the evaluated
contribution are exactly those of the subgraph with the self-loop edges
removed. -/
theorem claim_C6_selfloop_edges_skipped (nw : NodesWeight) (ew : EdgesWeight)
    (p : ℕ) (pargs : List ℝ) (el : Element) (G : SubGraph) :
    build_circuit nw ew (removeSelfLoops G) p pargs
        = build_circuit nw ew G p pargs ∧
      get_expectation nw ew p pargs (el, removeSelfLoops G)
        = get_expectation nw ew p pargs (el, G) := by
  have hb := build_circuit_removeSelfLoops nw ew G p pargs
  refine ⟨hb, ?_⟩
  unfold get_expectation
  dsimp only [removeSelfLoops_nodes]
  rw [hb]

/-- Spec-side definition (section 4.1 step 5, stated in the spec's words):
the element's weight — `nodes_weight[element]` for a node,
`edges_weight[(a,b)]` for an edge. -/
def spec_element_weight (nw : NodesWeight) (ew : EdgesWeight) :
    Element → Option ℝ
  | Element.node v => nw v
  | Element.edge a b => ew (a, b)

/-- Spec-side definition (section 4.1 step 5, stated in the spec's words):
the local qubits carrying Z factors — the node's local qubit for a node
element, the two endpoints' local qubits for an edge element. -/
def spec_element_qubits (nodes : List ℕ) : Element → List ℕ
  | Element.node v => [node_to_qubit nodes v]
  | Element.edge a b => [node_to_qubit nodes a, node_to_qubit nodes b]

/-- The inner product of two state vectors. -/
def qInner (n : ℕ) (φ ψ : QState n) : ℂ :=
  ∑ x : Fin n → Bool, (starRingEnd ℂ) (φ x) * ψ x

/-- The (diagonal) observable made of Z factors on the qubits in `S`, applied
to a state vector as an operator. -/
def applyZObservable (n : ℕ) (S : List ℕ) (ψ : QState n) : QState n :=
  fun x => (S.map (zSignAt n x)).prod * ψ x

lemma expectation_eq_qInner (n : ℕ) (S : List ℕ) (ψ : QState n)
    (hS : S.all (· < n) = true) :
    expectation_from_state_vector n S ψ
      = some (qInner n ψ (applyZObservable n S ψ)) := by
  unfold expectation_from_state_vector qInner applyZObservable
  rw [if_pos hS]
  congr 1
  apply Finset.sum_congr rfl
  intro x _
  ring

/-- C3. The per-term evaluator returns
`weight(element) * Re ⟨state| O |state⟩` for the simulated final state of the
subgraph circuit, where weight and observable are chosen by the element's
shape: a node gives `nodes_weight[element]` and Z on its local qubit, an edge
`(a,b)` gives `edges_weight[(a,b)]` and Z⊗Z on the local qubits of `a` and
`b`. -/
theorem claim_C3_per_term_weighted_expectation (nw : NodesWeight)
    (ew : EdgesWeight) (p : ℕ) (pargs : List ℝ) (e : Element) (G : SubGraph)
    (circ : List Gate) (ψ : QState G.nodes.length) (w : ℝ)
    (hc : build_circuit nw ew G p pargs = some circ)
    (hs : final_state_vector G.nodes.length circ = some ψ)
    (hw : spec_element_weight nw ew e = some w)
    (hq : (spec_element_qubits G.nodes e).all (· < G.nodes.length) = true) :
    get_expectation nw ew p pargs (e, G)
      = some (w * (qInner G.nodes.length ψ
          (applyZObservable G.nodes.length (spec_element_qubits G.nodes e)
            ψ)).re) := by
  unfold get_expectation
  dsimp only
  rw [hc, Option.some_bind]
  cases e with
  | node v =>
    rw [show spec_element_weight nw ew (Element.node v) = nw v from rfl] at hw
    dsimp only
    rw [hw]
    dsimp only [Option.map_some', Option.some_bind]
    rw [hs, Option.some_bind,
      expectation_eq_qInner G.nodes.length [node_to_qubit G.nodes v] ψ hq]
    rfl
  | edge a b =>
    rw [show spec_element_weight nw ew (Element.edge a b) = ew (a, b) from rfl]
      at hw
    dsimp only
    rw [hw]
    dsimp only [Option.map_some', Option.some_bind]
    rw [hs, Option.some_bind,
      expectation_eq_qInner G.nodes.length
        [node_to_qubit G.nodes a, node_to_qubit G.nodes b] ψ hq]
    rfl

/-- The state `cirq.final_state_vector` yields for the one-gate circuit
`[H 0]` on one qubit, written as the simulator produces it. -/
def psiW : QState 1 := fun x =>
  (zeroState 1 (Function.update x ⟨0, Nat.one_pos⟩ false)
      + signB (x ⟨0, Nat.one_pos⟩)
          * zeroState 1 (Function.update x ⟨0, Nat.one_pos⟩ true))
    / (Real.sqrt 2 : ℂ)

theorem claim_C3_witness :
    build_circuit nwOne ewNone G0 0 [] = some [Gate.h 0] ∧
      final_state_vector G0.nodes.length [Gate.h 0] = some psiW ∧
      spec_element_weight nwOne ewNone (Element.node 0) = some 1 ∧
      (spec_element_qubits G0.nodes (Element.node 0)).all
          (· < G0.nodes.length) = true ∧
      get_expectation nwOne ewNone 0 [] (Element.node 0, G0)
        = some (1 * (qInner G0.nodes.length psiW
            (applyZObservable G0.nodes.length
              (spec_element_qubits G0.nodes (Element.node 0)) psiW)).re) :=
  ⟨rfl, rfl, rfl, rfl,
    claim_C3_per_term_weighted_expectation nwOne ewNone 0 [] (Element.node 0)
      G0 [Gate.h 0] psiW 1 rfl rfl rfl rfl⟩

/-- Intermediate simulation state after Hadamards on local qubits
`0, …, k-1`: amplitude `(√2)⁻ᵏ` on every assignment whose remaining qubits
are all 0. -/
def hLayerState (n k : ℕ) : QState n := fun x =>
  (((Real.sqrt 2 : ℝ) : ℂ))⁻¹ ^ k
    * (if ∀ i : Fin n, k ≤ i.val → x i = false then 1 else 0)

lemma hLayerState_zero (n : ℕ) : hLayerState n 0 = zeroState n := by
  funext x
  unfold hLayerState zeroState
  simp [Nat.zero_le]

lemma applyGate_h_layer (n k : ℕ) (hk : k < n) :
    applyGate n (hLayerState n k) (Gate.h k) = some (hLayerState n (k + 1)) := by
  unfold applyGate
  dsimp only
  rw [dif_pos hk]
  congr 1
  funext x
  unfold hLayerState
  have h2 : (if ∀ i : Fin n, k ≤ i.val → Function.update x ⟨k, hk⟩ true i = false
      then (1 : ℂ) else 0) = 0 := by
    rw [if_neg]
    intro hall
    have hcontra := hall ⟨k, hk⟩ (le_refl k)
    rw [Function.update_same] at hcontra
    exact Bool.noConfusion hcontra
  have h1 : (if ∀ i : Fin n, k ≤ i.val → Function.update x ⟨k, hk⟩ false i = false
        then (1 : ℂ) else 0)
      = (if ∀ i : Fin n, k + 1 ≤ i.val → x i = false then (1 : ℂ) else 0) := by
    apply if_congr _ rfl rfl
    constructor
    · intro hall i hi
      have hne : i ≠ ⟨k, hk⟩ := by
        intro hik
        rw [hik] at hi
        exact Nat.not_succ_le_self k hi
      have hxi := hall i (Nat.le_of_succ_le hi)
      rwa [Function.update_noteq hne] at hxi
    · intro hall i hi
      by_cases hik : i = ⟨k, hk⟩
      · rw [hik, Function.update_same]
      · rw [Function.update_noteq hik]
        apply hall
        rcases Nat.lt_or_ge i.val (k + 1) with hlow | hhigh
        · exfalso
          exact hik (Fin.ext (show i.val = k by omega))
        · exact hhigh
  rw [h1, h2, mul_zero, mul_zero, add_zero, pow_succ]
  ring

lemma foldlM_option_append {α β : Type} (f : β → α → Option β)
    (l1 l2 : List α) (b : β) :
    List.foldlM f b (l1 ++ l2)
      = (List.foldlM f b l1).bind fun b2 => List.foldlM f b2 l2 := by
  induction l1 generalizing b with
  | nil => rfl
  | cons x xs ih =>
    rw [List.cons_append, List.foldlM_cons, List.foldlM_cons]
    cases f b x with
    | none => rfl
    | some b1 => exact ih b1

lemma h_chain (n : ℕ) : ∀ k, k ≤ n →
    List.foldlM (applyGate n) (zeroState n) ((List.range k).map Gate.h)
      = some (hLayerState n k) := by
  intro k
  induction k with
  | zero =>
    intro _
    rw [← hLayerState_zero n]
    rfl
  | succ k ih =>
    intro hk1
    rw [List.range_succ, List.map_append, foldlM_option_append,
      ih (Nat.le_of_succ_le hk1), Option.some_bind, List.map_singleton,
      List.foldlM_cons, applyGate_h_layer n k hk1]
    rfl

lemma hLayerState_top (n : ℕ) (x : Fin n → Bool) :
    hLayerState n n x = (((Real.sqrt 2 : ℝ) : ℂ))⁻¹ ^ n := by
  unfold hLayerState
  rw [if_pos, mul_one]
  intro i hi
  exact absurd i.isLt (Nat.not_lt.mpr hi)

/-- Flip one qubit of a bit assignment. -/
def flipQ (n : ℕ) (q : Fin n) (x : Fin n → Bool) : Fin n → Bool :=
  Function.update x q (!(x q))

lemma flipQ_involutive (n : ℕ) (q : Fin n) :
    Function.Involutive (flipQ n q) := by
  intro x
  funext i
  unfold flipQ
  by_cases hi : i = q
  · rw [hi]
    simp only [Function.update_same, Bool.not_not]
  · simp only [Function.update_noteq hi]

lemma zSignAt_flip (n : ℕ) (q : Fin n) (x : Fin n → Bool) (r : ℕ) :
    zSignAt n (flipQ n q x) r
      = (if r = q.val then -1 else 1) * zSignAt n x r := by
  unfold zSignAt
  by_cases hr : r < n
  · rw [dif_pos hr, dif_pos hr]
    by_cases hrq : r = q.val
    · have hfin : (⟨r, hr⟩ : Fin n) = q := Fin.ext hrq
      rw [if_pos hrq, hfin]
      show signB (flipQ n q x q) = -1 * signB (x q)
      rw [show flipQ n q x q = !(x q) from Function.update_same q _ x]
      cases x q <;> simp [signB]
    · have hne : (⟨r, hr⟩ : Fin n) ≠ q := fun hcon => hrq (congrArg Fin.val hcon)
      rw [if_neg hrq, one_mul,
        show flipQ n q x ⟨r, hr⟩ = x ⟨r, hr⟩ from Function.update_noteq hne _ x]
  · rw [dif_neg hr, dif_neg hr]
    by_cases hrq : r = q.val
    · exact absurd (hrq ▸ q.isLt) hr
    · rw [if_neg hrq, one_mul]

lemma sum_zsign_mul_eq_zero (n : ℕ) (q : Fin n) (ψ : QState n) (S : List ℕ)
    (hinv : ∀ x, ψ (flipQ n q x) = ψ x)
    (hflip : ∀ x, ((S.map (zSignAt n (flipQ n q x))).prod : ℂ)
        = -(S.map (zSignAt n x)).prod) :
    ∑ x : Fin n → Bool,
        (S.map (zSignAt n x)).prod * (starRingEnd ℂ) (ψ x) * ψ x = 0 := by
  set F : (Fin n → Bool) → ℂ :=
    fun x => (S.map (zSignAt n x)).prod * (starRingEnd ℂ) (ψ x) * ψ x with hF
  have hFflip : ∀ x, F (flipQ n q x) = -F x := by
    intro x
    rw [hF]
    dsimp only
    rw [hinv x, hflip x]
    ring
  have hcomp : ∑ x : Fin n → Bool, F (flipQ n q x) = ∑ x : Fin n → Bool, F x :=
    Equiv.sum_comp
      (Function.Involutive.toPerm (flipQ n q) (flipQ_involutive n q)) F
  have hsum : ∑ x : Fin n → Bool, F x = -∑ x : Fin n → Bool, F x := by
    conv_lhs => rw [← hcomp]
    calc ∑ x : Fin n → Bool, F (flipQ n q x)
        = ∑ x : Fin n → Bool, -F x :=
          Finset.sum_congr rfl (fun x _ => hFflip x)
      _ = -∑ x : Fin n → Bool, F x := by rw [Finset.sum_neg_distrib]
  have h2 : (∑ x : Fin n → Bool, F x) + (∑ x : Fin n → Bool, F x) = 0 := by
    nth_rewrite 2 [hsum]
    exact add_neg_cancel _
  exact add_self_eq_zero.mp h2

lemma expectation_uniform_zero (n : ℕ) (S : List ℕ) (q : Fin n)
    (hS : S.all (· < n) = true)
    (hflip : ∀ x : Fin n → Bool,
      ((S.map (zSignAt n (flipQ n q x))).prod : ℂ)
        = -(S.map (zSignAt n x)).prod) :
    expectation_from_state_vector n S (hLayerState n n) = some 0 := by
  unfold expectation_from_state_vector
  rw [if_pos hS]
  congr 1
  apply sum_zsign_mul_eq_zero n q _ S _ hflip
  intro x
  rw [hLayerState_top, hLayerState_top]

lemma zsign_flip_single (n : ℕ) (q : Fin n) (x : Fin n → Bool) :
    (([q.val].map (zSignAt n (flipQ n q x))).prod : ℂ)
      = -([q.val].map (zSignAt n x)).prod := by
  simp [zSignAt_flip]

lemma zsign_flip_pair (n : ℕ) (q : Fin n) (v : ℕ) (hv : v ≠ q.val)
    (x : Fin n → Bool) :
    (([q.val, v].map (zSignAt n (flipQ n q x))).prod : ℂ)
      = -([q.val, v].map (zSignAt n x)).prod := by
  simp only [List.map_cons, List.map_nil, List.prod_cons, List.prod_nil,
    zSignAt_flip, if_pos rfl, if_neg hv, if_true]
  ring

lemma node_to_qubit_lt (nl : List ℕ) (v : ℕ) (hn : 0 < nl.length) :
    node_to_qubit nl v < nl.length := by
  unfold node_to_qubit
  by_cases hv : v ∈ nl
  · rw [if_pos hv]
    exact List.indexOf_lt_length.mpr hv
  · rw [if_neg hv]
    exact hn

lemma build_circuit_p0 (nw : NodesWeight) (ew : EdgesWeight) (G : SubGraph)
    (pargs : List ℝ) :
    build_circuit nw ew G 0 pargs
      = some ((List.range G.nodes.length).map Gate.h) := by
  have h0 : build_circuit nw ew G 0 pargs
      = some ((List.range G.nodes.length).map Gate.h
          ++ (List.flatten ([] : List (List Gate)))) := rfl
  rw [h0]
  simp

/-- Well-formedness of one term for the `p = 0` claim: its weight entry
exists, its subgraph is nonempty, and an edge element's endpoints sit on
distinct local qubits. -/
def p0TermOK (nw : NodesWeight) (ew : EdgesWeight) :
    Element × SubGraph → Prop
  | (Element.node v, G) => (nw v).isSome = true ∧ 0 < G.nodes.length
  | (Element.edge a b, G) => (ew (a, b)).isSome = true ∧ 0 < G.nodes.length
      ∧ node_to_qubit G.nodes a ≠ node_to_qubit G.nodes b

lemma get_expectation_p0 (nw : NodesWeight) (ew : EdgesWeight)
    (pargs : List ℝ) (eg : Element × SubGraph) (hok : p0TermOK nw ew eg) :
    get_expectation nw ew 0 pargs eg = some 0 := by
  obtain ⟨e, G⟩ := eg
  cases e with
  | node v =>
    obtain ⟨hwsome, hn⟩ := hok
    obtain ⟨w, hw⟩ := Option.isSome_iff_exists.mp hwsome
    have hq : node_to_qubit G.nodes v < G.nodes.length :=
      node_to_qubit_lt _ _ hn
    unfold get_expectation
    dsimp only
    rw [build_circuit_p0, Option.some_bind, hw]
    dsimp only [Option.map_some', Option.some_bind]
    rw [show final_state_vector G.nodes.length
          ((List.range G.nodes.length).map Gate.h)
          = some (hLayerState G.nodes.length G.nodes.length) from
        h_chain G.nodes.length G.nodes.length le_rfl, Option.some_bind]
    rw [expectation_uniform_zero G.nodes.length [node_to_qubit G.nodes v]
        ⟨node_to_qubit G.nodes v, hq⟩ (by simp [hq])
        (fun x => zsign_flip_single G.nodes.length
          ⟨node_to_qubit G.nodes v, hq⟩ x)]
    simp
  | edge a b =>
    obtain ⟨hwsome, hn, hne⟩ := hok
    obtain ⟨w, hw⟩ := Option.isSome_iff_exists.mp hwsome
    have hqa : node_to_qubit G.nodes a < G.nodes.length :=
      node_to_qubit_lt _ _ hn
    have hqb : node_to_qubit G.nodes b < G.nodes.length :=
      node_to_qubit_lt _ _ hn
    unfold get_expectation
    dsimp only
    rw [build_circuit_p0, Option.some_bind, hw]
    dsimp only [Option.map_some', Option.some_bind]
    rw [show final_state_vector G.nodes.length
          ((List.range G.nodes.length).map Gate.h)
          = some (hLayerState G.nodes.length G.nodes.length) from
        h_chain G.nodes.length G.nodes.length le_rfl, Option.some_bind]
    rw [expectation_uniform_zero G.nodes.length
        [node_to_qubit G.nodes a, node_to_qubit G.nodes b]
        ⟨node_to_qubit G.nodes a, hqa⟩ (by simp [hqa, hqb])
        (fun x => zsign_flip_pair G.nodes.length
          ⟨node_to_qubit G.nodes a, hqa⟩ (node_to_qubit G.nodes b)
          (fun hcon => hne hcon.symm) x)]
    simp

lemma pool_map_all_zero {α : Type} (f : α → Option ℝ) (l : List α)
    (h : ∀ x ∈ l, f x = some 0) :
    pool_map f l = some (l.map fun _ => (0 : ℝ)) := by
  induction l with
  | nil => rfl
  | cons x xs ih =>
    rw [show pool_map f (x :: xs)
        = (f x).bind fun v => (pool_map f xs).map fun vs => v :: vs from rfl]
    rw [h x (List.mem_cons_self x xs), Option.some_bind,
      ih (fun y hy => h y (List.mem_cons_of_mem x hy))]
    rfl

lemma foldl_add_zeros {α : Type} (l : List α) : ∀ a : ℝ,
    (l.map fun _ => (0 : ℝ)).foldl (· + ·) a = a := by
  induction l with
  | nil => intro a; rfl
  | cons x xs ih =>
    intro a
    rw [List.map_cons, List.foldl_cons, add_zero]
    exact ih a

/-- C5. With depth `p = 0` the per-term circuit is the Hadamard layer alone,
so each term's state is the uniform superposition: every node-term
contribution is exactly `some 0` (weight times the zero Z-expectation on
|+…+⟩), every edge-term contribution with endpoints on distinct local qubits
is exactly `some 0`, and the serial total is exactly 0 (appended as such to
the history). -/
theorem claim_C5_p0_total_zero (c : CircuitByCirq) (hp : c.p = 0)
    (hall : ∀ eg ∈ c.element_to_graph,
      p0TermOK c.nodes_weight c.edges_weight eg) :
    (∀ eg ∈ c.element_to_graph,
        get_expectation c.nodes_weight c.edges_weight c.p c.pargs eg
          = some 0) ∧
      expectation_calculation_serial c
        = some (0, { c with expectation_path := c.expectation_path ++ [0] }) := by
  have hterm : ∀ eg ∈ c.element_to_graph,
      get_expectation c.nodes_weight c.edges_weight c.p c.pargs eg = some 0 := by
    intro eg heg
    rw [hp]
    exact get_expectation_p0 c.nodes_weight c.edges_weight c.pargs eg
      (hall eg heg)
  refine ⟨hterm, ?_⟩
  rw [serial_run]
  have hrt : run_total c = some 0 := by
    unfold run_total
    rw [pool_map_all_zero _ _ hterm, Option.map_some', foldl_add_zeros]
  rw [hrt]
  rfl

/-- A two-node subgraph with one edge, for the C5 witness. -/
def G5 : SubGraph := ⟨[0, 1], [(0, 1)]⟩

/-- A depth-0 engine whose mapping holds one node term and one edge term on
`G5`, all weights present. -/
def c5 : CircuitByCirq :=
  { p := 0
    nodes_weight := fun _ => some 1
    edges_weight := fun _ => some 1
    is_parallel := false
    element_to_graph := [(Element.node 0, G5), (Element.edge 0 1, G5)]
    pargs := []
    expectation_path := [] }

theorem claim_C5_witness :
    c5.p = 0 ∧
      (∀ eg ∈ c5.element_to_graph,
          get_expectation c5.nodes_weight c5.edges_weight c5.p c5.pargs eg
            = some 0) ∧
      expectation_calculation_serial c5
        = some (0, { c5 with expectation_path := c5.expectation_path ++ [0] }) := by
  have hall : ∀ eg ∈ c5.element_to_graph,
      p0TermOK c5.nodes_weight c5.edges_weight eg := by
    intro eg heg
    rcases List.mem_cons.mp heg with rfl | h2
    · exact ⟨rfl, by decide⟩
    rcases List.mem_cons.mp h2 with rfl | h3
    · exact ⟨rfl, by decide, by decide⟩
    exact absurd h3 (List.not_mem_nil _)
  have h := claim_C5_p0_total_zero c5 rfl hall
  exact ⟨rfl, h.1, h.2⟩

end

end CircuitByCirqModel
